import Mathlib

/-!
Verification of the rule-based categorization engine of the budget repository
(file src/budget/clean.py). Strings are modelled as lists of characters;
pandas data frames of transactions are modelled as lists of records; the
interactive loop is modelled as a recursive function over the list of user
input lines, emitting a trace of persistence events.
-/

set_option autoImplicit false

/-- Strings of the source program, modelled as lists of characters. -/
abbrev Str : Type := List Char

/-- Convenience conversion from Lean string literals. -/
def str (s : String) : Str := s.data

/-- One transaction row of the data frame built by read_data: columns
date, description, out, in, type plus the category column written by the
Matcher. The column named in is called inAmt here (in is reserved). -/
structure Txn where
  date : Str
  description : Str
  out : Option Int
  inAmt : Option Int
  type : Str
  category : Str
deriving DecidableEq

/-- The Rule dataclass of clean.py. The category field has Python default
None; an empty category string is falsy exactly like None. -/
structure Rule where
  string_to_match : Str
  keep : Bool
  category : Option Str
deriving DecidableEq

/-- The Ruleset dataclass of clean.py: an ordered list of rules. -/
structure Ruleset where
  rules : List Rule
deriving DecidableEq

/-- Literal substring containment: pandas str.contains(..., regex=False). -/
def containsSub (s pat : Str) : Bool := s.tails.any (fun t => pat.isPrefixOf t)

/-- The label-join delimiter of clean.py, comma followed by space. -/
def delim : Str := [',', ' ']

/-- Characters stripped at both ends by Python strip with argument comma-space. -/
def isDelim (c : Char) : Bool := c == ',' || c == ' '

/-- Python str.strip applied with the comma-space character set: removes
every leading and trailing comma or space. -/
def stripDelim (s : Str) : Str := ((s.dropWhile isDelim).reverse.dropWhile isDelim).reverse

/-- Truthiness of rule.category in Python: None and the empty string are
falsy, every other string is truthy. -/
def ruleCat (r : Rule) : Option Str :=
  match r.category with
  | none => none
  | some c => if c = [] then none else some c

/-- One iteration of the rule loop inside apply_rules: first the row
removal for keep=False, then the category prepend for a truthy category.
The guard on matches.sum() in the source only controls logging; assigning
through an empty mask is a no-op, so it is not modelled. -/
def applyRule (df : List Txn) (r : Rule) : List Txn :=
  let df1 := if r.keep then df else
    df.filter (fun t => !(containsSub t.description r.string_to_match))
  match ruleCat r with
  | none => df1
  | some c => df1.map (fun t =>
      if containsSub t.description r.string_to_match
      then { t with category := c ++ delim ++ t.category } else t)

/-- apply_rules of clean.py: reset every category to the empty string, run
every rule in order, then strip delimiter characters from both ends of
every category string. -/
def apply_rules (df : List Txn) (rs : Ruleset) : List Txn :=
  ((rs.rules.foldl applyRule (df.map (fun t => { t with category := [] }))).map
    (fun t => { t with category := stripDelim t.category }))

/-- Row survival under a single rule: rows are removed only by keep=False
rules whose match text occurs in the description. -/
def survOne (r : Rule) (t : Txn) : Bool :=
  r.keep || !(containsSub t.description r.string_to_match)

/-- Row survival under a full rule list. -/
def survives (rules : List Rule) (t : Txn) : Bool := rules.all (fun r => survOne r t)

/-- The category-string update a single rule performs on one row. -/
def catStep (r : Rule) (d : Str) (acc : Str) : Str :=
  match ruleCat r with
  | none => acc
  | some c => if containsSub d r.string_to_match then c ++ delim ++ acc else acc

/-- The category string accumulated over a rule list for one description. -/
def catFold (rules : List Rule) (d : Str) (acc : Str) : Str :=
  rules.foldl (fun a r => catStep r d a) acc

/-- The per-row effect of the whole Matcher on a surviving row. -/
def setCat (rules : List Rule) (t : Txn) : Txn :=
  { t with category := stripDelim (catFold rules t.description []) }

/-- Forgetting the category column (used to state frame properties). -/
def clearCat (t : Txn) : Txn := { t with category := [] }

/-- The pointwise form of the map inside applyRule. -/
def mapOne (r : Rule) (t : Txn) : Txn := { t with category := catStep r t.description t.category }

/-- The categories of the rules that match a given description, in rule
order (used to characterise the category string the Matcher builds). -/
def matchedCats (rules : List Rule) (d : Str) : List Str :=
  rules.filterMap (fun r =>
    match ruleCat r with
    | none => none
    | some c => if containsSub d r.string_to_match then some c else none)

/-- Folding a label list the way apply_rules does: each label is prepended
together with the delimiter, so the final string lists labels in reverse
match order. -/
def joinRev (l : List Str) : Str := l.foldl (fun acc c => c ++ delim ++ acc) []

/-- Lexicographic strict order on strings by character code, as Python
compares strings. -/
def strLtB : Str → Str → Bool
  | [], [] => false
  | [], _ :: _ => true
  | _ :: _, [] => false
  | a :: as, b :: bs => if a < b then true else if a = b then strLtB as bs else false

/-- Non-strict lexicographic order. -/
def strLeB (a b : Str) : Bool := strLtB a b || a == b

/-- Insertion step of insertion sort. -/
def insertStr (x : Str) : List Str → List Str
  | [] => [x]
  | y :: ys => if strLeB x y then x :: y :: ys else y :: insertStr x ys

/-- Insertion sort, modelling Python sorted on a list of strings. -/
def sortStrs : List Str → List Str
  | [] => []
  | x :: xs => insertStr x (sortStrs xs)

/-- The lowercased prefix of the first n characters of a category name,
cat[:n].lower() in the source. -/
def lowPref (cat : Str) (n : Nat) : Str := (cat.take n).map Char.toLower

/-- The inner while loop of build_shorthand_category_mapping: starting at
the given length, find the shortest lowercased prefix not yet used as a
key; give up (the ValueError of the source) once the incremented length
exceeds the category length. The fuel argument only bounds recursion and
equals the number of further lengths the source could still try, so the
fuel-exhausted branch is unreachable from the initial call. -/
def shLoop (keys : List Str) (cat : Str) : Nat → Nat → Option Str
  | n, fuel =>
    if keys.contains (lowPref cat n) then
      if cat.length < n + 1 then none
      else
        match fuel with
        | 0 => none
        | Nat.succ f => shLoop keys cat (n + 1) f
    else some (lowPref cat n)

/-- The outer for loop of build_shorthand_category_mapping, accumulating
the insertion-ordered key-to-category association list. -/
def buildGo : List (Str × Str) → List Str → Except Str (List (Str × Str))
  | acc, [] => Except.ok acc
  | acc, cat :: cats =>
    match shLoop (acc.map Prod.fst) cat 1 cat.length with
    | none => Except.error (str "Cannot create unique shorthand for category " ++ cat)
    | some sh => buildGo (acc ++ [(sh, cat)]) cats

/-- The distinct truthy category values of a ruleset, in sorted order:
sorted(list(set(...))) of the source. -/
def categoriesOf (rs : Ruleset) : List Str := sortStrs ((rs.rules.filterMap ruleCat).dedup)

/-- build_shorthand_category_mapping of clean.py. A raised ValueError is
modelled as the error case carrying the message text. -/
def build_shorthand_category_mapping (rs : Ruleset) : Except Str (List (Str × Str)) :=
  buildGo [] (categoriesOf rs)

/-- The keys of a shorthand mapping. -/
def keysOf (m : List (Str × Str)) : List Str := m.map Prod.fst

/-- What holds of one shorthand entry relative to the keys assigned before
it: the key is a nonempty lowercased prefix of its category, it was not
yet taken, and every strictly shorter prefix was already taken. -/
def GoodEntry (prior : List Str) (k c : Str) : Prop :=
  1 ≤ k.length ∧ k.length ≤ c.length ∧ k = lowPref c k.length ∧
    k ∉ prior ∧ ∀ j, 1 ≤ j → j < k.length → lowPref c j ∈ prior

/-- load_ruleset of clean.py, with the file system made explicit: none
models a missing rules.yaml (the FileNotFoundError branch), some holds the
parsed rule list. -/
def load_ruleset (file : Option (List Rule)) : Ruleset :=
  match file with
  | none => Ruleset.mk []
  | some rules => Ruleset.mk rules

/-- A transaction counts as uncategorized when its category is empty (the
category column is never null after apply_rules). -/
def txnUncat (t : Txn) : Bool := t.category == []

/-- The conflict check of categorize: some distinct category value
contains a comma. -/
def hasConflict (df : List Txn) : Bool :=
  ((df.map (fun t => t.category)).dedup).any (fun c => c.contains ',')

/-- Python str.lower. -/
def lowerStr (s : Str) : Str := s.map Char.toLower

/-- Python str.upper. -/
def upperStr (s : Str) : Str := s.map Char.toUpper

/-- The exit sentinel comparison user_cat.upper() == EXIT. -/
def isExit (u : Str) : Bool := upperStr u == str "EXIT"

/-- The promotion prompt check: lowercased answer equals y or yes. -/
def isYes (m : Str) : Bool := lowerStr m == str "y" || lowerStr m == str "yes"

/-- Resolving the entered text through the shorthand mapping: a known
lowercased key resolves to its category, anything else is taken verbatim. -/
def resolveCat (sh : List (Str × Str)) (u : Str) : Str :=
  match sh.lookup (lowerStr u) with
  | some c => c
  | none => u

/-- Observable persistence events of one categorize session: a rule
appended to the in-memory ruleset, an autosave write of the ruleset, the
conflict diagnostic hard stop, the EXIT sentinel, and loop completion. -/
inductive Event where
  | appendRule : Rule → Event
  | autosave : Ruleset → Event
  | conflictStop : Event
  | exitCmd : Event
  | done : Event
deriving DecidableEq

/-- Discriminator for autosave events. -/
def Event.isAutosave : Event → Bool
  | autosave _ => true
  | _ => false

/-- Every appended rule is immediately followed in the event trace either
by an autosave whose saved ruleset contains that rule, or by the conflict
hard stop. -/
def TraceOk (evs : List Event) : Prop :=
  ∀ i r, evs[i]? = some (Event.appendRule r) →
    (∃ rs2, evs[i + 1]? = some (Event.autosave rs2) ∧ r ∈ rs2.rules) ∨
      evs[i + 1]? = some Event.conflictStop

/-- The interactive while loop of categorize, driven by the list of user
input lines. Each iteration consumes the category answer, the promotion
answer and, when promotion is accepted, the match string. An exhausted
input list ends the model run (the source would block on input there);
the ValueError of the shorthand builder propagates as the error case.
The order of effects follows the source: append the rule, re-run
apply_rules, stop on the conflict check, and only then autosave. -/
def categorizeLoop (df : List Txn) (rs : Ruleset) :
    List Str → Except Str (List Txn × Ruleset × List Event)
  | [] =>
    match df.find? txnUncat with
    | none => Except.ok (df, rs, [Event.done])
    | some _ => Except.ok (df, rs, [])
  | u :: rest =>
    match df.find? txnUncat with
    | none => Except.ok (df, rs, [Event.done])
    | some t =>
      match build_shorthand_category_mapping rs with
      | Except.error e => Except.error e
      | Except.ok sh =>
        if isExit u then Except.ok (df, rs, [Event.exitCmd])
        else
          match rest with
          | [] => Except.ok (df, rs, [])
          | m :: rest2 =>
            if isYes m then
              match rest2 with
              | [] => Except.ok (df, rs, [])
              | d :: rest3 =>
                let r : Rule := ⟨d, true, some (resolveCat sh u)⟩
                let rs2 : Ruleset := ⟨rs.rules ++ [r]⟩
                let df2 := apply_rules df rs2
                if hasConflict df2 then
                  Except.ok (df2, rs2, [Event.appendRule r, Event.conflictStop])
                else
                  match categorizeLoop df2 rs2 rest3 with
                  | Except.error e => Except.error e
                  | Except.ok (df3, rs3, evs) =>
                    Except.ok (df3, rs3, Event.appendRule r :: Event.autosave rs2 :: evs)
            else
              let r : Rule := ⟨t.description, true, some (resolveCat sh u)⟩
              let rs2 : Ruleset := ⟨rs.rules ++ [r]⟩
              let df2 := apply_rules df rs2
              if hasConflict df2 then
                Except.ok (df2, rs2, [Event.appendRule r, Event.conflictStop])
              else
                match categorizeLoop df2 rs2 rest2 with
                | Except.error e => Except.error e
                | Except.ok (df3, rs3, evs) =>
                  Except.ok (df3, rs3, Event.appendRule r :: Event.autosave rs2 :: evs)

/-- categorize of clean.py: one initial apply_rules, then the interactive
loop. -/
def categorize (df : List Txn) (rs : Ruleset) (inputs : List Str) :
    Except Str (List Txn × Ruleset × List Event) :=
  categorizeLoop (apply_rules df rs) rs inputs

/-- Scenario constants used by the concrete claims. -/
def rUber : Rule := ⟨str "UBER", true, some (str "Transport")⟩

def rEats : Rule := ⟨str "EATS", true, some (str "Food")⟩

def txnUberEats : Txn := ⟨str "2024-02-01", str "UBER EATS", some 30, none, str "credit", []⟩

def txnMisc : Txn := ⟨str "2024-02-02", str "MISC", some 5, none, str "debit", []⟩

def ruleATM : Rule := ⟨str "ATM", false, none⟩

def txnATM : Txn := ⟨str "2024-01-03", str "ATM WITHDRAWAL", some 100, none, str "debit", []⟩

def txnCoffeeShop : Txn := ⟨str "2024-01-04", str "COFFEE SHOP", some 4, none, str "debit", []⟩

def ruleKillA : Rule := ⟨str "AAA", false, none⟩

def ruleKillB : Rule := ⟨str "BBB", false, none⟩

def txnAAA : Txn := ⟨str "2024-03-01", str "AAA STORE", some 1, none, str "debit", []⟩

def txnBBB : Txn := ⟨str "2024-03-02", str "BBB STORE", some 2, none, str "debit", []⟩

def rAlphaOne : Rule := ⟨str "ALPHA", true, some (str "One")⟩

def rBetaTwo : Rule := ⟨str "BETA", true, some (str "Two")⟩

def txnAlphaBeta : Txn := ⟨str "2024-04-01", str "ALPHA BETA", some 7, none, str "debit", []⟩

def txnGamma : Txn := ⟨str "2024-04-02", str "GAMMA", some 8, none, str "debit", []⟩

def txnTeaHouse : Txn := ⟨str "2024-05-01", str "TEA HOUSE", some 3, none, str "debit", []⟩

def rsFoodFo : Ruleset :=
  ⟨[⟨str "a", true, some (str "Food")⟩, ⟨str "b", true, some (str "Fo")⟩]⟩

def rsFFOFo : Ruleset :=
  ⟨[⟨str "a", true, some (str "F")⟩, ⟨str "b", true, some (str "FO")⟩,
    ⟨str "c", true, some (str "Fo")⟩]⟩

def rsFoodTransport : Ruleset :=
  ⟨[⟨str "x", true, some (str "Food")⟩, ⟨str "y", true, some (str "Transport")⟩]⟩

theorem applyRule_eq (df : List Txn) (r : Rule) :
    applyRule df r = (df.filter (fun t => survOne r t)).map (mapOne r) := by
  unfold applyRule survOne mapOne catStep
  cases hk : r.keep with
  | true =>
    simp only [if_pos rfl, Bool.true_or]
    cases hc : ruleCat r with
    | none =>
      simp only [List.filter_true]
      exact (List.map_id'' (fun _ => rfl) _).symm
    | some c =>
      simp only [List.filter_true]
      refine List.map_congr_left (fun t _ => ?_)
      by_cases h : containsSub t.description r.string_to_match
      · simp [h]
      · simp [h]
  | false =>
    simp only [hk, Bool.false_or, Bool.false_eq_true, if_false]
    cases hc : ruleCat r with
    | none => exact (List.map_id'' (fun _ => rfl) _).symm
    | some c =>
      refine (List.map_congr_left (fun t ht => ?_)).symm
      have hb : containsSub t.description r.string_to_match = false := by
        have := (List.mem_filter.mp ht).2
        simpa using this
      simp [hb]

theorem foldl_applyRule (rules : List Rule) (df : List Txn) :
    rules.foldl applyRule df =
      (df.filter (fun t => survives rules t)).map
        (fun t => { t with category := catFold rules t.description t.category }) := by
  induction rules generalizing df with
  | nil =>
    simp only [List.foldl_nil, survives, List.all_nil, List.filter_true, catFold,
      List.foldl_nil]
    exact (List.map_id'' (fun _ => rfl) _).symm
  | cons r rules ih =>
    rw [List.foldl_cons, ih (applyRule df r), applyRule_eq]
    rw [List.filter_map, List.map_map]
    have h1 : ((fun t => survives rules t) ∘ mapOne r) = fun t => survives rules t := rfl
    rw [h1, List.filter_filter]
    have h2 : df.filter (fun a => survives rules a && survOne r a)
        = df.filter (fun t => survives (r :: rules) t) :=
      List.filter_congr (fun t _ => by simp [survives, List.all_cons, Bool.and_comm])
    rw [h2]
    rfl

theorem apply_rules_eq (df : List Txn) (rs : Ruleset) :
    apply_rules df rs = (df.filter (fun t => survives rs.rules t)).map (setCat rs.rules) := by
  unfold apply_rules
  rw [foldl_applyRule, List.filter_map, List.map_map, List.map_map]
  have h1 : ((fun t => survives rs.rules t) ∘ fun t : Txn => { t with category := [] }) =
      fun t => survives rs.rules t := by
    funext t; rfl
  rw [h1]
  rfl

theorem countP_not_split {α : Type} (l : List α) (p : α → Bool) :
    l.countP (fun a => !p a) + l.countP p = l.length := by
  induction l with
  | nil => rfl
  | cons a l ih =>
    cases h : p a <;> simp [List.countP_cons, h] <;> omega

/-- C5: the Matcher is idempotent: re-running apply_rules on its own output
with the same ruleset returns the same rows with the same categories. -/
theorem apply_rules_idempotent (df : List Txn) (rs : Ruleset) :
    apply_rules (apply_rules df rs) rs = apply_rules df rs := by
  rw [apply_rules_eq df rs, apply_rules_eq]
  rw [List.filter_map, List.map_map]
  have h1 : ((fun t => survives rs.rules t) ∘ setCat rs.rules)
      = fun t => survives rs.rules t := rfl
  rw [h1, List.filter_filter]
  have h2 : (df.filter fun a => survives rs.rules a && survives rs.rules a)
      = df.filter fun t => survives rs.rules t :=
    List.filter_congr (fun t _ => by simp)
  rw [h2]
  rfl

/-- C10: apply_rules mutates only the category field and row membership:
erasing categories, the output is a sublist of the input (same relative
order), and every output row keeps the date, description, out, in and type
values of an input row. -/
theorem apply_rules_frame (df : List Txn) (rs : Ruleset) :
    ((apply_rules df rs).map clearCat).Sublist (df.map clearCat)
    ∧ ∀ t' ∈ apply_rules df rs, ∃ t ∈ df,
        t.date = t'.date ∧ t.description = t'.description ∧ t.out = t'.out ∧
          t.inAmt = t'.inAmt ∧ t.type = t'.type := by
  constructor
  · rw [apply_rules_eq, List.map_map]
    have h1 : (clearCat ∘ setCat rs.rules) = clearCat := rfl
    rw [h1]
    exact (List.filter_sublist _).map clearCat
  · intro t' ht'
    rw [apply_rules_eq] at ht'
    obtain ⟨t, ht, rfl⟩ := List.mem_map.mp ht'
    exact ⟨t, (List.mem_filter.mp ht).1, rfl, rfl, rfl, rfl, rfl⟩

/-- C6 counterexample: with two keep=false rules, exactly one input row
contains the first rule's match text, yet the output has two fewer rows
than the input, not one fewer. -/
theorem removal_one_fewer_cex :
    ([txnAAA, txnBBB].countP
        (fun t => containsSub t.description ruleKillA.string_to_match)) = 1
    ∧ ruleKillA ∈ (Ruleset.mk [ruleKillA, ruleKillB]).rules
    ∧ ruleKillA.keep = false
    ∧ (apply_rules [txnAAA, txnBBB] ⟨[ruleKillA, ruleKillB]⟩).length = 0
    ∧ ([txnAAA, txnBBB] : List Txn).length = 2 := by
  refine ⟨by decide, by decide, by decide, by decide, by decide⟩

/-- C6 amended: for every keep=false rule of the ruleset, no output row's
description contains its match text; and when that rule is the only
keep=false rule and exactly one input row contains the match text, the
output has exactly one fewer row. -/
theorem apply_rules_removal (df : List Txn) (rs : Ruleset) (r : Rule)
    (hmem : r ∈ rs.rules) (hkeep : r.keep = false) :
    (∀ t' ∈ apply_rules df rs, containsSub t'.description r.string_to_match = false)
    ∧ ((∀ r' ∈ rs.rules, r'.keep = false → r' = r) →
        df.countP (fun t => containsSub t.description r.string_to_match) = 1 →
        (apply_rules df rs).length + 1 = df.length) := by
  constructor
  · intro t' ht'
    rw [apply_rules_eq] at ht'
    obtain ⟨t, ht, rfl⟩ := List.mem_map.mp ht'
    have hs : survives rs.rules t = true := by
      have := (List.mem_filter.mp ht).2
      simpa using this
    have h1 := List.all_eq_true.mp hs r hmem
    simp only [survOne, hkeep, Bool.false_or, Bool.not_eq_true'] at h1
    exact h1
  · intro honly hcount
    rw [apply_rules_eq, List.length_map, ← List.countP_eq_length_filter]
    have hsurv : (fun t => survives rs.rules t)
        = fun t : Txn => !(containsSub t.description r.string_to_match) := by
      funext t
      cases hct : containsSub t.description r.string_to_match with
      | false =>
        simp only [Bool.not_false]
        apply List.all_eq_true.mpr
        intro r' hr'
        cases hk' : r'.keep with
        | true => simp [survOne, hk']
        | false =>
          have he : r' = r := honly r' hr' hk'
          subst he
          simp [survOne, hk', hct]
      | true =>
        simp only [Bool.not_true]
        cases hall : survives rs.rules t with
        | false => rfl
        | true =>
          exfalso
          have h1 := List.all_eq_true.mp hall r hmem
          simp [survOne, hkeep, hct] at h1
    rw [hsurv]
    have hsplit : df.countP (fun t : Txn => !(containsSub t.description r.string_to_match))
        + df.countP (fun t : Txn => containsSub t.description r.string_to_match)
        = df.length := countP_not_split df _
    omega

/-- C6 witness: the ATM WITHDRAWAL scenario with a single keep=false rule. -/
theorem apply_rules_removal_witness :
    (∀ t' ∈ apply_rules [txnATM, txnCoffeeShop] ⟨[ruleATM]⟩,
        containsSub t'.description ruleATM.string_to_match = false)
    ∧ (apply_rules [txnATM, txnCoffeeShop] ⟨[ruleATM]⟩).length + 1
        = ([txnATM, txnCoffeeShop] : List Txn).length := by
  have h := apply_rules_removal [txnATM, txnCoffeeShop] ⟨[ruleATM]⟩ ruleATM
    (by decide) (by decide)
  exact ⟨h.1, h.2 (by decide) (by decide)⟩

/-- C1 counterexample: the two orders of the UBER and EATS rules are a
permutation of each other, yet apply_rules returns different outputs (the
category strings differ: Food, Transport versus Transport, Food). -/
theorem apply_rules_order_cex :
    (Ruleset.mk [rEats, rUber]).rules.Perm (Ruleset.mk [rUber, rEats]).rules
    ∧ apply_rules [txnUberEats] ⟨[rUber, rEats]⟩
        ≠ apply_rules [txnUberEats] ⟨[rEats, rUber]⟩ := by
  exact ⟨List.Perm.swap rUber rEats [], by decide⟩

theorem survives_perm {l l' : List Rule} (h : l.Perm l') (t : Txn) :
    survives l t = survives l' t := by
  apply Bool.eq_iff_iff.mpr
  unfold survives
  rw [List.all_eq_true, List.all_eq_true]
  exact ⟨fun H r hr => H r (h.mem_iff.mpr hr), fun H r hr => H r (h.mem_iff.mp hr)⟩

theorem catFold_cons (r : Rule) (rules : List Rule) (d acc : Str) :
    catFold (r :: rules) d acc = catFold rules d (catStep r d acc) := rfl

theorem catFold_eq_matched (rules : List Rule) (d : Str) :
    ∀ acc, catFold rules d acc
      = (matchedCats rules d).foldl (fun a c => c ++ delim ++ a) acc := by
  induction rules with
  | nil => intro acc; rfl
  | cons r rules ih =>
    intro acc
    rw [catFold_cons]
    cases hc : ruleCat r with
    | none =>
      have hm : matchedCats (r :: rules) d = matchedCats rules d := by
        simp [matchedCats, List.filterMap_cons, hc]
      have hs : catStep r d acc = acc := by simp [catStep, hc]
      rw [hm, hs]
      exact ih acc
    | some c =>
      cases hct : containsSub d r.string_to_match with
      | true =>
        have hm : matchedCats (r :: rules) d = c :: matchedCats rules d := by
          simp [matchedCats, List.filterMap_cons, hc, hct]
        have hs : catStep r d acc = c ++ delim ++ acc := by simp [catStep, hc, hct]
        rw [hm, hs, List.foldl_cons]
        exact ih _
      | false =>
        have hm : matchedCats (r :: rules) d = matchedCats rules d := by
          simp [matchedCats, List.filterMap_cons, hc, hct]
        have hs : catStep r d acc = acc := by simp [catStep, hc, hct]
        rw [hm, hs]
        exact ih acc

/-- C1 amended: permuting the ruleset preserves the surviving rows (same
rows, same order, same non-category fields) and, for each surviving row,
the multiset of matched category labels; the category string concatenates
those labels in reverse match order, so only their order within the string
may change under permutation. -/
theorem apply_rules_perm_invariant (df : List Txn) (rs rs' : Ruleset)
    (h : rs.rules.Perm rs'.rules) :
    (apply_rules df rs).map clearCat = (apply_rules df rs').map clearCat
    ∧ (∀ t' ∈ apply_rules df rs,
        t'.category = stripDelim (joinRev (matchedCats rs.rules t'.description)))
    ∧ List.Forall₂ (fun a b =>
        (matchedCats rs.rules a.description).Perm (matchedCats rs'.rules b.description))
      (apply_rules df rs) (apply_rules df rs') := by
  have hfil : df.filter (fun t => survives rs.rules t)
      = df.filter (fun t => survives rs'.rules t) :=
    List.filter_congr (fun t _ => survives_perm h t)
  refine ⟨?_, ?_, ?_⟩
  · rw [apply_rules_eq, apply_rules_eq, List.map_map, List.map_map, hfil]
    rfl
  · intro t' ht'
    rw [apply_rules_eq] at ht'
    obtain ⟨t, ht, rfl⟩ := List.mem_map.mp ht'
    show stripDelim (catFold rs.rules t.description []) = _
    exact congrArg stripDelim (catFold_eq_matched rs.rules t.description [])
  · rw [apply_rules_eq, apply_rules_eq, hfil]
    rw [List.forall₂_map_left_iff, List.forall₂_map_right_iff, List.forall₂_same]
    intro x hx
    exact List.Perm.filterMap _ h

/-- C1 witness: instantiating the permutation invariance at the UBER EATS
scenario. -/
theorem apply_rules_perm_invariant_witness :
    ((Ruleset.mk [rUber, rEats]).rules.Perm (Ruleset.mk [rEats, rUber]).rules)
    ∧ ((apply_rules [txnUberEats] ⟨[rUber, rEats]⟩).map clearCat
        = (apply_rules [txnUberEats] ⟨[rEats, rUber]⟩).map clearCat) := by
  have hp : (Ruleset.mk [rUber, rEats]).rules.Perm (Ruleset.mk [rEats, rUber]).rules :=
    List.Perm.swap rEats rUber []
  exact ⟨hp,
    (apply_rules_perm_invariant [txnUberEats] ⟨[rUber, rEats]⟩ ⟨[rEats, rUber]⟩ hp).1⟩

/-- C2 counterexample: building the shorthand index from categories Food
and Fo succeeds instead of raising the unresolvable-shorthand error. -/
theorem shorthand_food_fo_cex :
    build_shorthand_category_mapping rsFoodFo
      = Except.ok [(str "f", str "Fo"), (str "fo", str "Food")] := rfl

/-- C2 amended: categories Food and Fo build successfully (f maps to Fo,
fo maps to Food); the unresolvable-shorthand error arises only when some
category exhausts every prefix of its full length, as with the categories
F, FO and Fo, which raise the error naming Fo. -/
theorem shorthand_collision_amended :
    build_shorthand_category_mapping rsFoodFo
      = Except.ok [(str "f", str "Fo"), (str "fo", str "Food")]
    ∧ build_shorthand_category_mapping rsFFOFo
      = Except.error (str "Cannot create unique shorthand for category Fo") :=
  ⟨rfl, rfl⟩

/-- C7: applying the UBER then EATS rules to a UBER EATS transaction
yields the category string Food, Transport (the first-applied label ends
last), and in the loop the conflict check fires and the run stops in the
conflict state. -/
theorem uber_eats_conflict :
    apply_rules [txnUberEats] ⟨[rUber, rEats]⟩
      = [{ txnUberEats with category := str "Food, Transport" }]
    ∧ categorize [txnUberEats, txnMisc] ⟨[rUber]⟩ [str "Food", str "y", str "EATS"]
      = Except.ok ([{ txnUberEats with category := str "Food, Transport" }, txnMisc],
          ⟨[rUber, rEats]⟩, [Event.appendRule rEats, Event.conflictStop]) :=
  ⟨rfl, rfl⟩

/-- C9: loading the ruleset when no persisted rule file exists returns the
empty ruleset rather than failing. -/
theorem load_ruleset_missing_file : load_ruleset none = Ruleset.mk [] := rfl

theorem traceOk_nil : TraceOk [] := by
  intro i r h
  simp at h

theorem traceOk_done : TraceOk [Event.done] := by
  intro i r h
  cases i with
  | zero => simp at h
  | succ n => simp at h

theorem traceOk_exit : TraceOk [Event.exitCmd] := by
  intro i r h
  cases i with
  | zero => simp at h
  | succ n => simp at h

theorem traceOk_conflict (r0 : Rule) :
    TraceOk [Event.appendRule r0, Event.conflictStop] := by
  intro i r h
  match i with
  | 0 => exact Or.inr (by simp)
  | 1 => simp at h
  | Nat.succ (Nat.succ n) => simp at h

theorem traceOk_cons (r0 : Rule) (rs2 : Ruleset) (evs : List Event)
    (hmem : r0 ∈ rs2.rules) (h : TraceOk evs) :
    TraceOk (Event.appendRule r0 :: Event.autosave rs2 :: evs) := by
  intro i r hi
  match i with
  | 0 =>
    have hr : r0 = r := by simpa using hi
    subst hr
    exact Or.inl ⟨rs2, by simp, hmem⟩
  | 1 => simp at hi
  | Nat.succ (Nat.succ n) =>
    have hi' : evs[n]? = some (Event.appendRule r) := by simpa using hi
    have hres := h n r hi'
    simpa using hres

theorem categorizeLoop_nil_trace (df : List Txn) (rs : Ruleset)
    (out : List Txn × Ruleset × List Event)
    (h : categorizeLoop df rs [] = Except.ok out) : TraceOk out.2.2 := by
  simp only [categorizeLoop] at h
  cases hf : df.find? txnUncat with
  | none =>
    rw [hf] at h
    simp only [Except.ok.injEq] at h
    subst h
    exact traceOk_done
  | some t =>
    rw [hf] at h
    simp only [Except.ok.injEq] at h
    subst h
    exact traceOk_nil

theorem categorizeLoop_trace_aux :
    ∀ n : Nat, ∀ inputs : List Str, inputs.length ≤ n →
      ∀ (df : List Txn) (rs : Ruleset) (out : List Txn × Ruleset × List Event),
        categorizeLoop df rs inputs = Except.ok out → TraceOk out.2.2 := by
  intro n
  induction n with
  | zero =>
    intro inputs hlen df rs out h
    have hnil : inputs = [] := List.eq_nil_of_length_eq_zero (Nat.le_zero.mp hlen)
    subst hnil
    exact categorizeLoop_nil_trace df rs out h
  | succ n ih =>
    intro inputs hlen df rs out h
    cases inputs with
    | nil => exact categorizeLoop_nil_trace df rs out h
    | cons u rest =>
      simp only [categorizeLoop] at h
      cases hf : df.find? txnUncat with
      | none =>
        rw [hf] at h
        simp only [Except.ok.injEq] at h
        subst h
        exact traceOk_done
      | some t =>
        rw [hf] at h
        cases hb : build_shorthand_category_mapping rs with
        | error e => rw [hb] at h; simp at h
        | ok sh =>
          rw [hb] at h
          by_cases hex : isExit u = true
          · simp only [hex, if_true, Except.ok.injEq] at h
            subst h
            exact traceOk_exit
          · have hex' : isExit u = false := by simpa using hex
            simp only [hex', Bool.false_eq_true, if_false] at h
            cases rest with
            | nil =>
              simp only [Except.ok.injEq] at h
              subst h
              exact traceOk_nil
            | cons m rest2 =>
              by_cases hy : isYes m = true
              · simp only [hy, if_true] at h
                cases rest2 with
                | nil =>
                  simp only [Except.ok.injEq] at h
                  subst h
                  exact traceOk_nil
                | cons d rest3 =>
                  by_cases hc : hasConflict
                      (apply_rules df ⟨rs.rules ++ [⟨d, true, some (resolveCat sh u)⟩]⟩) = true
                  · simp only [hc, if_true, Except.ok.injEq] at h
                    subst h
                    exact traceOk_conflict _
                  · have hc' : hasConflict
                        (apply_rules df ⟨rs.rules ++ [⟨d, true, some (resolveCat sh u)⟩]⟩)
                          = false := by simpa using hc
                    simp only [hc', Bool.false_eq_true, if_false] at h
                    cases hrec : categorizeLoop
                        (apply_rules df ⟨rs.rules ++ [⟨d, true, some (resolveCat sh u)⟩]⟩)
                        ⟨rs.rules ++ [⟨d, true, some (resolveCat sh u)⟩]⟩ rest3 with
                    | error e => rw [hrec] at h; simp at h
                    | ok val =>
                      obtain ⟨df3, rs3, evs⟩ := val
                      rw [hrec] at h
                      simp only [Except.ok.injEq] at h
                      subst h
                      refine traceOk_cons _ _ _ (by simp) ?_
                      have hlen3 : rest3.length ≤ n := by
                        simp only [List.length_cons] at hlen
                        omega
                      exact ih rest3 hlen3 _ _ (df3, rs3, evs) hrec
              · have hy' : isYes m = false := by simpa using hy
                simp only [hy', Bool.false_eq_true, if_false] at h
                by_cases hc : hasConflict
                    (apply_rules df ⟨rs.rules ++ [⟨t.description, true, some (resolveCat sh u)⟩]⟩)
                      = true
                · simp only [hc, if_true, Except.ok.injEq] at h
                  subst h
                  exact traceOk_conflict _
                · have hc' : hasConflict
                      (apply_rules df ⟨rs.rules ++ [⟨t.description, true, some (resolveCat sh u)⟩]⟩)
                        = false := by simpa using hc
                  simp only [hc', Bool.false_eq_true, if_false] at h
                  cases hrec : categorizeLoop
                      (apply_rules df ⟨rs.rules ++ [⟨t.description, true, some (resolveCat sh u)⟩]⟩)
                      ⟨rs.rules ++ [⟨t.description, true, some (resolveCat sh u)⟩]⟩ rest2 with
                  | error e => rw [hrec] at h; simp at h
                  | ok val =>
                    obtain ⟨df3, rs3, evs⟩ := val
                    rw [hrec] at h
                    simp only [Except.ok.injEq] at h
                    subst h
                    refine traceOk_cons _ _ _ (by simp) ?_
                    have hlen2 : rest2.length ≤ n := by
                      simp only [List.length_cons] at hlen
                      omega
                    exact ih rest2 hlen2 _ _ (df3, rs3, evs) hrec

/-- C3 amended: in every successful run of the categorization loop, every
appended rule is immediately followed in the event trace either by an
autosave of a ruleset containing that rule, or by the conflict hard stop;
the conflict-detecting iteration does not autosave (the break in the
source precedes the autosave), the newly appended rule remaining only in
the in-memory ruleset. -/
theorem categorizeLoop_autosave_trace (inputs : List Str) (df : List Txn) (rs : Ruleset)
    (out : List Txn × Ruleset × List Event)
    (h : categorizeLoop df rs inputs = Except.ok out) : TraceOk out.2.2 :=
  categorizeLoop_trace_aux inputs.length inputs (Nat.le_refl _) df rs out h

/-- C3 counterexample: a run whose appended rule triggers the conflict
check ends with the trace append-then-conflict and contains no autosave
event at all, so the iteration that appended the rule did not autosave
before reaching the conflict state. -/
theorem conflict_iteration_no_autosave_cex :
    categorize [txnAlphaBeta, txnGamma] ⟨[rAlphaOne]⟩ [str "Two", str "y", str "BETA"]
      = Except.ok ([{ txnAlphaBeta with category := str "Two, One" }, txnGamma],
          ⟨[rAlphaOne, rBetaTwo]⟩, [Event.appendRule rBetaTwo, Event.conflictStop])
    ∧ ([Event.appendRule rBetaTwo, Event.conflictStop].all
        (fun e => !(e.isAutosave))) = true :=
  ⟨rfl, rfl⟩

/-- C3 witness: a conflict-free run in which the appended rule is followed
by its autosave, instantiating the trace theorem. -/
theorem categorizeLoop_autosave_trace_witness :
    categorizeLoop [txnTeaHouse] ⟨[]⟩ [str "Drinks", str "n"]
      = Except.ok ([{ txnTeaHouse with category := str "Drinks" }],
          ⟨[⟨str "TEA HOUSE", true, some (str "Drinks")⟩]⟩,
          [Event.appendRule ⟨str "TEA HOUSE", true, some (str "Drinks")⟩,
            Event.autosave ⟨[⟨str "TEA HOUSE", true, some (str "Drinks")⟩]⟩, Event.done])
    ∧ TraceOk [Event.appendRule ⟨str "TEA HOUSE", true, some (str "Drinks")⟩,
        Event.autosave ⟨[⟨str "TEA HOUSE", true, some (str "Drinks")⟩]⟩, Event.done] := by
  constructor
  · rfl
  · exact categorizeLoop_autosave_trace [str "Drinks", str "n"] [txnTeaHouse] ⟨[]⟩
      ([{ txnTeaHouse with category := str "Drinks" }],
        ⟨[⟨str "TEA HOUSE", true, some (str "Drinks")⟩]⟩,
        [Event.appendRule ⟨str "TEA HOUSE", true, some (str "Drinks")⟩,
          Event.autosave ⟨[⟨str "TEA HOUSE", true, some (str "Drinks")⟩]⟩, Event.done]) rfl

theorem isPrefixOf_self (l : Str) : l.isPrefixOf l = true := by
  induction l with
  | nil => rfl
  | cons a l ih => simp [List.isPrefixOf, ih]

theorem containsSub_self (d : Str) : containsSub d d = true := by
  unfold containsSub
  rw [List.any_eq_true]
  exact ⟨d, (List.mem_tails d d).mpr (List.suffix_refl d), isPrefixOf_self d⟩

theorem catFold_nomatch (rules : List Rule) (d : Str)
    (h : ∀ r ∈ rules, containsSub d r.string_to_match = false) :
    ∀ acc, catFold rules d acc = acc := by
  induction rules with
  | nil => intro acc; rfl
  | cons r rules ih =>
    intro acc
    rw [catFold_cons]
    have hr := h r (List.mem_cons_self r rules)
    have hs : catStep r d acc = acc := by
      cases hc : ruleCat r with
      | none => simp [catStep, hc]
      | some c => simp [catStep, hc, hr]
    rw [hs]
    exact ih (fun r' hr' => h r' (List.mem_cons_of_mem r hr')) acc

theorem stripDelim_append_delim (cat : Str) (a b : Char) (l l' : Str)
    (h1 : cat = a :: l) (h2 : cat = l' ++ [b])
    (ha : isDelim a = false) (hb : isDelim b = false) :
    stripDelim (cat ++ delim) = cat := by
  unfold stripDelim delim
  have hfront : List.dropWhile isDelim (cat ++ [',', ' ']) = cat ++ [',', ' '] := by
    rw [h1]
    rw [List.cons_append, List.dropWhile_cons_of_neg (by simp [ha])]
  rw [hfront, List.reverse_append]
  have hrev : cat.reverse = b :: l'.reverse := by rw [h2]; simp
  have hback : List.dropWhile isDelim (([',', ' '] : Str).reverse ++ cat.reverse)
      = cat.reverse := by
    have hr2 : (([',', ' '] : Str).reverse ++ cat.reverse)
        = ' ' :: ',' :: cat.reverse := rfl
    rw [hr2, List.dropWhile_cons_of_pos (by decide),
      List.dropWhile_cons_of_pos (by decide), hrev,
      List.dropWhile_cons_of_neg (by simp [hb])]
  rw [hback, List.reverse_reverse]

/-- C4: when the user declines rule promotion, the loop still appends a
rule whose match text is the focus transaction's exact description with
the chosen category, and after re-running apply_rules with the extended
ruleset that transaction carries the chosen category, hence is no longer
uncategorized. Hypotheses: the session state is mid-iteration (a focus
transaction exists, the shorthand build succeeded, the input is neither
the exit sentinel nor a promotion acceptance), the chosen category is a
nonempty name with no leading or trailing delimiter character, and no
existing rule's match text occurs in the focus description. -/
theorem declined_promotion_persists (df : List Txn) (rs : Ruleset) (t : Txn)
    (u m : Str) (rest : List Str) (sh : List (Str × Str))
    (hfind : df.find? txnUncat = some t)
    (hsh : build_shorthand_category_mapping rs = Except.ok sh)
    (hexit : isExit u = false)
    (hyes : isYes m = false)
    (hcat_ne : resolveCat sh u ≠ [])
    (hhead : ∃ a l, resolveCat sh u = a :: l ∧ isDelim a = false)
    (hlast : ∃ b l', resolveCat sh u = l' ++ [b] ∧ isDelim b = false)
    (hnomatch : ∀ r ∈ rs.rules, containsSub t.description r.string_to_match = false) :
    (∀ out, categorizeLoop df rs (u :: m :: rest) = Except.ok out →
        out.2.2.head? = some (Event.appendRule
          ⟨t.description, true, some (resolveCat sh u)⟩))
    ∧ ∃ t' ∈ apply_rules df
          ⟨rs.rules ++ [⟨t.description, true, some (resolveCat sh u)⟩]⟩,
        t'.description = t.description ∧ t'.category = resolveCat sh u := by
  constructor
  · intro out h
    simp only [categorizeLoop, hfind, hsh, hexit, hyes, Bool.false_eq_true, if_false] at h
    by_cases hc : hasConflict
        (apply_rules df ⟨rs.rules ++ [⟨t.description, true, some (resolveCat sh u)⟩]⟩) = true
    · simp only [hc, if_true, Except.ok.injEq] at h
      subst h
      rfl
    · have hc' : hasConflict
          (apply_rules df ⟨rs.rules ++ [⟨t.description, true, some (resolveCat sh u)⟩]⟩)
            = false := by simpa using hc
      simp only [hc', Bool.false_eq_true, if_false] at h
      cases hrec : categorizeLoop
          (apply_rules df ⟨rs.rules ++ [⟨t.description, true, some (resolveCat sh u)⟩]⟩)
          ⟨rs.rules ++ [⟨t.description, true, some (resolveCat sh u)⟩]⟩ rest with
      | error e => rw [hrec] at h; simp at h
      | ok val =>
        obtain ⟨df3, rs3, evs⟩ := val
        rw [hrec] at h
        simp only [Except.ok.injEq] at h
        subst h
        rfl
  · obtain ⟨a, la, ha_eq, ha⟩ := hhead
    obtain ⟨b, lb, hb_eq, hb⟩ := hlast
    have htmem : t ∈ df := List.mem_of_find?_eq_some hfind
    refine ⟨setCat (rs.rules ++ [⟨t.description, true, some (resolveCat sh u)⟩]) t,
      ?_, rfl, ?_⟩
    · rw [apply_rules_eq]
      apply List.mem_map_of_mem
      apply List.mem_filter.mpr
      refine ⟨htmem, ?_⟩
      show survives _ t = true
      apply List.all_eq_true.mpr
      intro r' hr'
      rcases List.mem_append.mp hr' with hl | hrr
      · have hcontains := hnomatch r' hl
        simp [survOne, hcontains]
      · have hr0 : r' = ⟨t.description, true, some (resolveCat sh u)⟩ := by
          simpa using hrr
        subst hr0
        simp [survOne]
    · show stripDelim (catFold (rs.rules ++ [⟨t.description, true, some (resolveCat sh u)⟩])
          t.description []) = resolveCat sh u
      unfold catFold
      rw [List.foldl_append]
      have h1 : (rs.rules.foldl (fun acc r => catStep r t.description acc) []) = ([] : Str) :=
        catFold_nomatch rs.rules t.description hnomatch []
      rw [h1]
      have hrc : ruleCat ⟨t.description, true, some (resolveCat sh u)⟩
          = some (resolveCat sh u) := by
        simp [ruleCat, hcat_ne]
      have h2 : catStep ⟨t.description, true, some (resolveCat sh u)⟩ t.description []
          = resolveCat sh u ++ delim := by
        simp [catStep, hrc, containsSub_self]
      show stripDelim (catStep ⟨t.description, true, some (resolveCat sh u)⟩
        t.description []) = resolveCat sh u
      rw [h2]
      exact stripDelim_append_delim (resolveCat sh u) a b la lb ha_eq hb_eq ha hb

/-- C4 witness: the COFFEE SHOP transaction categorized Food with the
promotion declined. -/
theorem declined_promotion_persists_witness :
    (∀ out, categorizeLoop [txnCoffeeShop] ⟨[]⟩ [str "Food", str "n"] = Except.ok out →
        out.2.2.head? = some (Event.appendRule
          ⟨str "COFFEE SHOP", true, some (str "Food")⟩))
    ∧ ∃ t' ∈ apply_rules [txnCoffeeShop]
          ⟨[⟨str "COFFEE SHOP", true, some (str "Food")⟩]⟩,
        t'.description = str "COFFEE SHOP" ∧ t'.category = str "Food" := by
  have h := declined_promotion_persists [txnCoffeeShop] ⟨[]⟩ txnCoffeeShop
    (str "Food") (str "n") [] [] rfl rfl rfl rfl (by decide)
    ⟨'F', str "ood", rfl, rfl⟩ ⟨'d', str "Foo", rfl, rfl⟩
    (by intro r hr; simp at hr)
  exact h

theorem shLoop_eq (keys : List Str) (cat : Str) (n fuel : Nat) :
    shLoop keys cat n fuel =
      if keys.contains (lowPref cat n) then
        if cat.length < n + 1 then none
        else
          match fuel with
          | 0 => none
          | Nat.succ f => shLoop keys cat (n + 1) f
      else some (lowPref cat n) := by
  cases fuel <;> rfl

theorem shLoop_some (keys : List Str) (cat : Str) :
    ∀ fuel n sh, shLoop keys cat n fuel = some sh →
      ∃ l, n ≤ l ∧ (l = n ∨ l ≤ cat.length) ∧ sh = lowPref cat l ∧
        keys.contains (lowPref cat l) = false ∧
        ∀ j, n ≤ j → j < l → keys.contains (lowPref cat j) = true := by
  intro fuel
  induction fuel with
  | zero =>
    intro n sh h
    rw [shLoop_eq] at h
    cases hc : keys.contains (lowPref cat n) with
    | false =>
      simp only [hc, Bool.false_eq_true, if_false, Option.some.injEq] at h
      subst h
      exact ⟨n, Nat.le_refl n, Or.inl rfl, rfl, hc, fun j hj1 hj2 => absurd hj2 (by omega)⟩
    | true =>
      simp only [hc, if_true] at h
      split at h <;> simp at h
  | succ f ih =>
    intro n sh h
    rw [shLoop_eq] at h
    cases hc : keys.contains (lowPref cat n) with
    | false =>
      simp only [hc, Bool.false_eq_true, if_false, Option.some.injEq] at h
      subst h
      exact ⟨n, Nat.le_refl n, Or.inl rfl, rfl, hc, fun j hj1 hj2 => absurd hj2 (by omega)⟩
    | true =>
      simp only [hc, if_true] at h
      by_cases hlen : cat.length < n + 1
      · rw [if_pos hlen] at h
        exact absurd h (by simp)
      · rw [if_neg hlen] at h
        have h' : shLoop keys cat (n + 1) f = some sh := h
        obtain ⟨l, hl1, hl2, hl3, hl4, hl5⟩ := ih (n + 1) sh h'
        refine ⟨l, by omega, Or.inr ?_, hl3, hl4, ?_⟩
        · rcases hl2 with rfl | h2
          · omega
          · exact h2
        · intro j hj1 hj2
          rcases Nat.lt_or_ge j (n + 1) with hlt | hge
          · have hj : j = n := by omega
            subst hj
            exact hc
          · exact hl5 j hge hj2

theorem contains_true_iff (l : List Str) (a : Str) : l.contains a = true ↔ a ∈ l := by
  rw [List.contains_eq_any_beq, List.any_eq_true]
  constructor
  · rintro ⟨x, hx, hbeq⟩
    have hax : a = x := beq_iff_eq.mp hbeq
    rw [hax]
    exact hx
  · intro h
    exact ⟨a, h, beq_iff_eq.mpr rfl⟩

theorem buildGo_props :
    ∀ (cats : List Str) (acc m : List (Str × Str)),
      (∀ c ∈ cats, c ≠ []) →
      buildGo acc cats = Except.ok m →
      ∃ ext, m = acc ++ ext ∧ ext.map Prod.snd = cats ∧
        ∀ i k c, ext[i]? = some (k, c) →
          GoodEntry (keysOf (acc ++ ext.take i)) k c := by
  intro cats
  induction cats with
  | nil =>
    intro acc m hne h
    simp only [buildGo, Except.ok.injEq] at h
    subst h
    exact ⟨[], by simp, rfl, fun i k c hik => by simp at hik⟩
  | cons cat cats ih =>
    intro acc m hne h
    simp only [buildGo] at h
    cases hsl : shLoop (acc.map Prod.fst) cat 1 cat.length with
    | none => rw [hsl] at h; simp at h
    | some sh =>
      rw [hsl] at h
      obtain ⟨ext, hm, hsnd, hprops⟩ :=
        ih (acc ++ [(sh, cat)]) m (fun c hc => hne c (List.mem_cons_of_mem _ hc)) h
      refine ⟨(sh, cat) :: ext, ?_, ?_, ?_⟩
      · rw [hm]
        simp
      · simp [hsnd]
      · intro i k c hik
        cases i with
        | zero =>
          simp only [List.getElem?_cons_zero, Option.some.injEq, Prod.mk.injEq] at hik
          obtain ⟨rfl, rfl⟩ := hik
          obtain ⟨l, hl1, hl2, hl3, hl4, hl5⟩ := shLoop_some _ _ _ _ _ hsl
          have hcne : cat ≠ [] := hne cat (List.mem_cons_self _ _)
          have hlen1 : 1 ≤ cat.length := List.length_pos.mpr hcne
          have hlle : l ≤ cat.length := by
            rcases hl2 with rfl | h2
            · exact hlen1
            · exact h2
          have hklen : (lowPref cat l).length = l := by
            simp only [lowPref, List.length_map, List.length_take]
            omega
          have htake : keysOf (acc ++ ((sh, cat) :: ext).take 0) = acc.map Prod.fst := by
            simp [keysOf]
          rw [htake]
          subst hl3
          refine ⟨by rw [hklen]; exact hl1, by rw [hklen]; exact hlle, ?_, ?_, ?_⟩
          · rw [hklen]
          · intro hmem
            have hct := (contains_true_iff _ _).mpr hmem
            rw [hl4] at hct
            exact Bool.false_ne_true hct
          · intro j hj1 hj2
            rw [hklen] at hj2
            exact (contains_true_iff _ _).mp (hl5 j hj1 hj2)
        | succ n =>
          have hik' : ext[n]? = some (k, c) := by simpa using hik
          have hres := hprops n k c hik'
          have heq : acc ++ ((sh, cat) :: ext).take (n + 1)
              = (acc ++ [(sh, cat)]) ++ ext.take n := by
            simp
          rw [heq]
          exact hres

theorem nodup_of_fresh :
    ∀ m : List (Str × Str),
      (∀ i k c, m[i]? = some (k, c) → k ∉ keysOf (m.take i)) →
      (keysOf m).Nodup := by
  intro m
  induction m with
  | nil => intro _; exact List.nodup_nil
  | cons e m' ih =>
    intro h
    obtain ⟨k0, c0⟩ := e
    have hk : keysOf ((k0, c0) :: m') = k0 :: keysOf m' := rfl
    rw [hk, List.nodup_cons]
    constructor
    · intro hmem
      obtain ⟨p, hp, hp1⟩ := List.mem_map.mp hmem
      obtain ⟨j, hj⟩ := List.getElem?_of_mem hp
      obtain ⟨k1, c1⟩ := p
      have hfr := h (j + 1) k1 c1 (by simpa using hj)
      apply hfr
      show k1 ∈ keysOf (((k0, c0) :: m').take (j + 1))
      rw [List.take_succ_cons]
      have : k1 = k0 := hp1
      rw [this]
      exact List.mem_cons_self _ _
    · apply ih
      intro i k c hi
      have hfr := h (i + 1) k c (by simpa using hi)
      intro hmem
      apply hfr
      show k ∈ keysOf (((k0, c0) :: m').take (i + 1))
      rw [List.take_succ_cons]
      exact List.mem_cons_of_mem _ hmem

theorem lookup_fresh :
    ∀ (m : List (Str × Str)) (i : Nat) (k c : Str),
      m[i]? = some (k, c) → k ∉ keysOf (m.take i) → m.lookup k = some c := by
  intro m
  induction m with
  | nil => intro i k c h _; simp at h
  | cons e m' ih =>
    intro i k c h hnot
    obtain ⟨k0, c0⟩ := e
    cases i with
    | zero =>
      simp only [List.getElem?_cons_zero, Option.some.injEq, Prod.mk.injEq] at h
      obtain ⟨rfl, rfl⟩ := h
      simp [List.lookup]
    | succ n =>
      have h' : m'[n]? = some (k, c) := by simpa using h
      have hne : (k == k0) = false := by
        apply beq_eq_false_iff_ne.mpr
        intro hkk
        apply hnot
        show k ∈ keysOf (((k0, c0) :: m').take (n + 1))
        rw [List.take_succ_cons]
        rw [hkk]
        exact List.mem_cons_self _ _
      have hnot' : k ∉ keysOf (m'.take n) := by
        intro hmem
        apply hnot
        show k ∈ keysOf (((k0, c0) :: m').take (n + 1))
        rw [List.take_succ_cons]
        exact List.mem_cons_of_mem _ hmem
      rw [List.lookup, hne]
      exact ih n k c h' hnot'

theorem mem_insertStr {x a : Str} : ∀ {l : List Str}, a ∈ insertStr x l → a = x ∨ a ∈ l := by
  intro l
  induction l with
  | nil =>
    intro h
    simp only [insertStr, List.mem_singleton] at h
    exact Or.inl h
  | cons y ys ih =>
    intro h
    unfold insertStr at h
    cases hle : strLeB x y with
    | true =>
      rw [hle, if_pos rfl] at h
      rcases List.mem_cons.mp h with h1 | h2
      · exact Or.inl h1
      · exact Or.inr h2
    | false =>
      rw [hle] at h
      simp only [Bool.false_eq_true, if_false] at h
      rcases List.mem_cons.mp h with h1 | h2
      · exact Or.inr (by rw [h1]; exact List.mem_cons_self _ _)
      · rcases ih h2 with h3 | h4
        · exact Or.inl h3
        · exact Or.inr (List.mem_cons_of_mem _ h4)

theorem mem_sortStrs {a : Str} : ∀ {l : List Str}, a ∈ sortStrs l → a ∈ l := by
  intro l
  induction l with
  | nil => intro h; simp [sortStrs] at h
  | cons x xs ih =>
    intro h
    rcases mem_insertStr h with h1 | h2
    · rw [h1]; exact List.mem_cons_self _ _
    · exact List.mem_cons_of_mem _ (ih h2)

theorem categoriesOf_ne_nil (rs : Ruleset) : ∀ c ∈ categoriesOf rs, c ≠ [] := by
  intro c hc
  have h1 : c ∈ (rs.rules.filterMap ruleCat).dedup := mem_sortStrs hc
  have h2 : c ∈ rs.rules.filterMap ruleCat := List.mem_dedup.mp h1
  obtain ⟨r, _, hr⟩ := List.mem_filterMap.mp h2
  unfold ruleCat at hr
  cases hcat : r.category with
  | none => rw [hcat] at hr; simp at hr
  | some c' =>
    rw [hcat] at hr
    by_cases hnil : c' = []
    · simp [hnil] at hr
    · simp [hnil] at hr
      rw [← hr]
      exact hnil

/-- C8: whenever building the Shorthand Index succeeds, the produced keys
are pairwise distinct; the categories processed are exactly the distinct
category names in sorted order; and each key is a nonempty lowercase
prefix of its category, the shortest one not already taken when that
category was processed (every strictly shorter prefix was taken), and
looks up back to exactly the category it was derived from. -/
theorem shorthand_build_spec (rs : Ruleset) (m : List (Str × Str))
    (h : build_shorthand_category_mapping rs = Except.ok m) :
    (keysOf m).Nodup
    ∧ m.map Prod.snd = categoriesOf rs
    ∧ ∀ i k c, m[i]? = some (k, c) →
        1 ≤ k.length ∧ k.length ≤ c.length ∧ k = lowPref c k.length ∧
          k ∉ keysOf (m.take i) ∧
          (∀ j, 1 ≤ j → j < k.length → lowPref c j ∈ keysOf (m.take i)) ∧
          m.lookup k = some c := by
  obtain ⟨ext, hm, hsnd, hprops⟩ :=
    buildGo_props (categoriesOf rs) [] m (categoriesOf_ne_nil rs) h
  have hm' : m = ext := by simpa using hm
  subst hm'
  have hprops' : ∀ i k c, m[i]? = some (k, c) → GoodEntry (keysOf (m.take i)) k c := by
    intro i k c hi
    have := hprops i k c hi
    simpa using this
  have hfresh : ∀ i k c, m[i]? = some (k, c) → k ∉ keysOf (m.take i) :=
    fun i k c hi => (hprops' i k c hi).2.2.2.1
  refine ⟨nodup_of_fresh m hfresh, hsnd, ?_⟩
  intro i k c hi
  obtain ⟨h1, h2, h3, h4, h5⟩ := hprops' i k c hi
  exact ⟨h1, h2, h3, h4, h5, lookup_fresh m i k c hi h4⟩

/-- C8 witness: the categories Food and Transport build the mapping
f maps to Food, t maps to Transport, instantiating the theorem. -/
theorem shorthand_build_spec_witness :
    build_shorthand_category_mapping rsFoodTransport
      = Except.ok [(str "f", str "Food"), (str "t", str "Transport")]
    ∧ (keysOf [(str "f", str "Food"), (str "t", str "Transport")]).Nodup
    ∧ [(str "f", str "Food"), (str "t", str "Transport")].map Prod.snd
        = categoriesOf rsFoodTransport :=
  ⟨rfl,
    (shorthand_build_spec rsFoodTransport
      [(str "f", str "Food"), (str "t", str "Transport")] rfl).1,
    (shorthand_build_spec rsFoodTransport
      [(str "f", str "Food"), (str "t", str "Transport")] rfl).2.1⟩
